import Mathlib

/-!
Verification of the rundas in-memory tabular data engine.

This file gives a shallow embedding of the core of the engine:
the cell-value type with text-based type inference (`src/data_frame/data.rs`),
the recursive-descent line tokenizer and text ingestion
(`src/data_frame/file_io.rs`), the layered view representation with its
row/header resolver, the transformation operations, grouping, and the
cheap/expensive materialization protocol (`src/data_frame.rs`).

Rust machine strings are modelled as `List Char` (all inputs relevant to the
claims are ASCII, so byte indices and char indices coincide and
`ceil_char_boundary` is the identity clamped to the length).  Rust `i32` is
modelled as `Int` with the `i32` bounds enforced at the only place the source
enforces them (`i32::from_str`).  Rust `f32` values are only ever produced by
`f32::from_str`, copied and compared; they are modelled as exact decimal
rationals (see `parseF32`).  Fallible Rust code returning `Result` is
modelled with `Except`; a Rust panic (`assert!`, `expect`) is modelled by a
dedicated constructor (`PanicOr.panic`) or by `Option.none` where noted.
-/

set_option maxRecDepth 100000

/-- Model of `SimpleDateTime` from `data.rs`: calendar fields, year first. -/
structure SimpleDateTime where
  year : Int
  month : Nat
  day : Nat
  hour : Nat
  minute : Nat
  second : Nat
deriving DecidableEq, Repr, Inhabited

/-- Model of `InnerData` from `data.rs`: the stored cell representation.  A string
cell is a half-open byte range into the owning table's `string_storage`. -/
inductive InnerData where
  | str (start stop : Nat)
  | int (n : Int)
  | float (q : ℚ)
  | bool (b : Bool)
  | date (d : SimpleDateTime)
  | vec (xs : List InnerData)
  | vec2d (x y : ℚ)
deriving Inhabited

/-- Model of `Data` from `data.rs`: the resolved cell value handed to callers
(string ranges already resolved against the arena). -/
inductive Data where
  | str (s : List Char)
  | int (n : Int)
  | float (q : ℚ)
  | bool (b : Bool)
  | date (d : SimpleDateTime)
  | vec (xs : List Data)
  | vec2d (x y : ℚ)
deriving Inhabited

/-- Rust slice `&storage[a..b]` on a char-list model of the byte buffer. -/
def sliceCL (st : List Char) (a b : Nat) : List Char :=
  (st.take b).drop a

/-- Model of `bool::from_str` (Rust std, modelled at its interface): accepts exactly
`"true"` and `"false"`. -/
def parseBool (s : List Char) : Option Bool :=
  if s = "true".toList then some true
  else if s = "false".toList then some false
  else none

/-- Digits of a char list read as a natural number, `none` when a
non-digit occurs or the list is empty. -/
def digitsToNat (s : List Char) : Option Nat :=
  match s with
  | [] => none
  | _ =>
    if s.all Char.isDigit then
      some (s.foldl (fun acc c => acc * 10 + (c.toNat - 48)) 0)
    else none

/-- Model of `i32::from_str` (Rust std, modelled at its interface): optional single
leading sign, then one or more decimal digits, and the value must fit in a
32-bit two's-complement integer. -/
def parseI32 (s : List Char) : Option Int :=
  let core : Option Int :=
    match s with
    | '+' :: rest => (digitsToNat rest).map Int.ofNat
    | '-' :: rest => (digitsToNat rest).map (fun n => -(Int.ofNat n))
    | _ => (digitsToNat s).map Int.ofNat
  core.bind (fun v => if -2147483648 ≤ v ∧ v < 2147483648 then some v else none)

/-- Powers of ten as integers, by plain recursion (kernel-reducible). -/
def powTen : Nat → Int
  | 0 => 1
  | n + 1 => powTen n * 10

/-- Decimal significand and fraction: `digits [. digits]` or `. digits` or
`digits .`, as accepted by `f32::from_str`, valued exactly. -/
def parseDecimalCore (s : List Char) : Option ℚ :=
  let intPart := s.takeWhile Char.isDigit
  let rest := s.dropWhile Char.isDigit
  match rest with
  | [] =>
    (digitsToNat intPart).map (fun n => (n : ℚ))
  | '.' :: frac =>
    if frac.all Char.isDigit ∧ (intPart ≠ [] ∨ frac ≠ []) then
      let ip : Nat := (digitsToNat intPart).getD 0
      let fp : Nat := (digitsToNat frac).getD 0
      some ((ip : ℚ) + Rat.divInt (Int.ofNat fp) (powTen frac.length))
    else none
  | _ => none

/-- Model of `f32::from_str` (Rust std, modelled at its interface): optional sign,
then a decimal number with optional fractional part and optional exponent,
or an `inf`/`infinity`/`nan` form.  The numeric value is kept as the exact
decimal rational; Rust rounds it to the nearest `f32`.  The two agree on
every exactly representable literal used in this development, and the
success/failure behavior (which is all the type-inference order depends on)
coincides. -/
def parseF32 (s : List Char) : Option ℚ :=
  let signed : List Char × Bool :=
    match s with
    | '+' :: rest => (rest, false)
    | '-' :: rest => (rest, true)
    | _ => (s, false)
  let body := signed.1
  let lower := body.map Char.toLower
  if lower = "inf".toList ∨ lower = "infinity".toList ∨ lower = "nan".toList then
    none  -- non-finite values never appear in this development; see note
  else
    let mantissa := body.takeWhile (fun c => c.isDigit ∨ c = '.')
    let expPart := body.dropWhile (fun c => c.isDigit ∨ c = '.')
    let mq : Option ℚ := parseDecimalCore mantissa
    let eq : Option Int :=
      match expPart with
      | [] => some 0
      | 'e' :: t => parseI32 t
      | 'E' :: t => parseI32 t
      | _ => none
    match mq, eq with
    | some m, some e =>
      let scale : ℚ :=
        match e with
        | Int.ofNat n => Rat.divInt (powTen n) 1
        | Int.negSucc n => Rat.divInt 1 (powTen (n + 1))
      let v := m * scale
      some (if signed.2 then -v else v)
    | _, _ => none

/-- Model of `DateTime::<Local>::from_str` (chrono, modelled at its interface): an
RFC 3339 timestamp `YYYY-MM-DDTHH:MM:SS` followed by an offset (`Z` or
`±HH:MM`).  Only the shape matters for the claims (it must reject every
non-timestamp token), so the model checks the fixed-position structure. -/
def parseDate (s : List Char) : Option SimpleDateTime :=
  if s.length ≥ 20 then
    let d4 := s.take 4
    let c1 := s.drop 4 |>.take 1
    let d2a := s.drop 5 |>.take 2
    let c2 := s.drop 7 |>.take 1
    let d2b := s.drop 8 |>.take 2
    let ct := s.drop 10 |>.take 1
    let h2 := s.drop 11 |>.take 2
    let c3 := s.drop 13 |>.take 1
    let m2 := s.drop 14 |>.take 2
    let c4 := s.drop 16 |>.take 1
    let s2 := s.drop 17 |>.take 2
    let off := s.drop 19
    let offOk : Bool :=
      off = ['Z'] ∨
      (off.length = 6 ∧ (off.headI = '+' ∨ off.headI = '-') ∧
        (off.drop 1 |>.take 2).all Char.isDigit ∧
        (off.drop 3 |>.take 1) = [':'] ∧ (off.drop 4).all Char.isDigit)
    if d4.all Char.isDigit ∧ c1 = ['-'] ∧ d2a.all Char.isDigit ∧ c2 = ['-'] ∧
        d2b.all Char.isDigit ∧ ct = ['T'] ∧ h2.all Char.isDigit ∧ c3 = [':'] ∧
        m2.all Char.isDigit ∧ c4 = [':'] ∧ s2.all Char.isDigit ∧ offOk then
      some
        ⟨Int.ofNat ((digitsToNat d4).getD 0), (digitsToNat d2a).getD 0,
          (digitsToNat d2b).getD 0, (digitsToNat h2).getD 0,
          (digitsToNat m2).getD 0, (digitsToNat s2).getD 0⟩
    else none
  else none

/-- Rust `str::split(' ')` on the char-list model. -/
def splitOnChar (sep : Char) (s : List Char) : List (List Char) :=
  match s with
  | [] => [[]]
  | c :: rest =>
    let tail := splitOnChar sep rest
    if c = sep then [] :: tail
    else
      match tail with
      | [] => [[c]]
      | t :: ts => (c :: t) :: ts

/-- Model of `impl From<&str> for Data` (`data.rs`, lines 158-181): ordered
type inference.  Boolean, then 32-bit integer, then 32-bit float, then
timestamp, then "two floats separated by a single space" as `Vec2D`
(`Point2D`), else fall back to `String`. -/
def dataFromStr (s : List Char) : Data :=
  match parseBool s with
  | some b => Data.bool b
  | none =>
    match parseI32 s with
    | some n => Data.int n
    | none =>
      match parseF32 s with
      | some q => Data.float q
      | none =>
        match parseDate s with
        | some d => Data.date d
        | none =>
          let parts := splitOnChar ' ' s
          if s.contains ' ' ∧ parts.length = 2 then
            match parseF32 (parts.getD 0 []), parseF32 (parts.getD 1 []) with
            | some x, some y => Data.vec2d x y
            | _, _ => Data.str s
          else Data.str s

/-- Recognizer for the `Float` constructor, used to state type-inference
claims without committing to the rounded bit-level value. -/
def Data.isFloat : Data → Bool
  | Data.float _ => true
  | _ => false

/-! ## The ingestion tokenizer (`ChunkIter`, `file_io.rs` lines 177-239) -/

/-- Model of `GROUPING_SYMBOLE` from `file_io.rs`: the six recognized grouping-symbol
pairs.  Returns the closing symbol when `c` opens a pair. -/
def closerFor (c : Char) : Option Char :=
  if c = '(' then some ')'
  else if c = '{' then some '}'
  else if c = '<' then some '>'
  else if c = '[' then some ']'
  else if c = '"' then some '"'
  else if c = '\'' then some '\''
  else none

/-- Model of `str::ceil_char_boundary` on the char-list model: the identity clamped
to the length (every index is a char boundary for the ASCII inputs of the
claims). -/
def ceilCB (s : List Char) (i : Nat) : Nat :=
  min i s.length

/-- The decision taken by one `ChunkIter::next` call (`file_io.rs` lines
200-238) before any recursive inner parse: the iterator is exhausted
(`done`), the code panics (`panic`: an opening grouping symbol whose close
symbol does not occur), a bracketed composite group was cut out
(`grouped innerStr rest`: the inner text to be parsed recursively and the
text at which scanning resumes), or a plain cell was produced
(`plain d rest`).

The source scans `trimed = self.string.trim_start()` but slices
`self.string` with the indices found on `trimed`; the model reproduces that
faithfully (`t`-relative indices used on `s`).  Note that in the grouped
case scanning resumes at `ceil_char_boundary(end_index + 1)`, i.e.
immediately after the close symbol: a separator following the close symbol
is NOT skipped. -/
inductive ChunkStep where
  | done
  | panic
  | grouped (innerStr rest : List Char)
  | plain (d : Data) (rest : List Char)

/-- One step of `ChunkIter::next` (`file_io.rs` lines 200-238). -/
def chunkStep (s : List Char) (sep : Char) : ChunkStep :=
  let t := s.dropWhile (fun c => c.isWhitespace)
  match t.head? with
  | none => ChunkStep.done
  | some first =>
    match closerFor first with
    | some endSym =>
      -- the scan for the close symbol starts at the peeked position,
      -- matching `chars.find` on the peekable iterator in the source
      match t.findIdx? (fun c => c = endSym) with
      | none => ChunkStep.panic   -- Rust: `.expect(...)` panics
      | some endIdx =>
        let trimedStart := ceilCB s 1
        let innerStr := sliceCL s trimedStart endIdx
        let trimedEnd := ceilCB s (endIdx + 1)
        ChunkStep.grouped innerStr (s.drop trimedEnd)
    | none =>
      match t.findIdx? (fun c => c = sep) with
      | some endIdx =>
        let item := dataFromStr (sliceCL s 0 endIdx)
        let trimedEnd := ceilCB s (endIdx + 1)
        ChunkStep.plain item (s.drop trimedEnd)
      | none =>
        ChunkStep.plain (dataFromStr (s.drop 0)) []

/-- Both parts produced by a `grouped` step are strictly shorter than the
input, and so is the remainder of a `plain` step: collecting the iterator
terminates.  (Stated as a `def` of proposition type because `parseLine`'s
termination argument depends on it.) -/
def chunkStep_shorter (s : List Char) (sep : Char) :
    (∀ innerStr rest, chunkStep s sep = ChunkStep.grouped innerStr rest →
      innerStr.length < s.length ∧ rest.length < s.length) ∧
    (∀ d rest, chunkStep s sep = ChunkStep.plain d rest →
      rest.length < s.length) := by
  unfold chunkStep
  set t := s.dropWhile (fun c => c.isWhitespace) with ht
  cases hhead : t.head? with
  | none => simp [hhead]
  | some first =>
    have hs : s ≠ [] := by
      intro hnil
      rw [hnil] at ht
      simp [ht] at hhead
    have hslen1 : 1 ≤ s.length := by
      cases s with
      | nil => exact absurd rfl hs
      | cons a l => simp
    simp only [hhead]
    cases hcl : closerFor first with
    | some endSym =>
      simp only [hcl]
      cases hf : t.findIdx? (fun c => c = endSym) with
      | none => simp [hf]
      | some endIdx =>
        simp only [hf]
        constructor
        · intro innerStr rest hg
          simp only [ChunkStep.grouped.injEq] at hg
          rw [← hg.1, ← hg.2]
          simp only [sliceCL, ceilCB, List.length_drop, List.length_take]
          omega
        · intro d rest hp
          simp at hp
    | none =>
      simp only [hcl]
      cases hf : t.findIdx? (fun c => c = sep) with
      | some endIdx =>
        simp only [hf]
        constructor
        · intro innerStr rest hg
          simp at hg
        · intro d rest hp
          simp only [ChunkStep.plain.injEq] at hp
          rw [← hp.2]
          simp only [ceilCB, List.length_drop]
          omega
      | none =>
        simp only [hf]
        constructor
        · intro innerStr rest hg
          simp at hg
        · intro d rest hp
          simp only [ChunkStep.plain.injEq] at hp
          rw [← hp.2]
          simpa using hslen1

/-- Collecting `ChunkIter` into a list of cells (`chunk_iter.collect()` in
`file_io.rs`): repeated `ChunkIter::next` until exhaustion.  `none` models a
panic (missing close symbol) anywhere in the line, including inside the
recursive parse of a composite group. -/
def parseLine (s : List Char) (sep : Char) : Option (List Data) :=
  match h : chunkStep s sep with
  | ChunkStep.done => some []
  | ChunkStep.panic => none
  | ChunkStep.grouped innerStr rest =>
    match parseLine innerStr sep with
    | none => none
    | some xs =>
      match parseLine rest sep with
      | none => none
      | some ds => some (Data.vec xs :: ds)
  | ChunkStep.plain d rest =>
    match parseLine rest sep with
    | none => none
    | some ds => some (d :: ds)
termination_by s.length
decreasing_by
  · exact ((chunkStep_shorter s sep).1 innerStr rest h).1
  · exact ((chunkStep_shorter s sep).1 innerStr rest h).2
  · exact (chunkStep_shorter s sep).2 d rest h

/-! ## Text ingestion (`BaseDataFrame::from_string`, `file_io.rs` lines 77-174)

`file_io.rs` targets the design iteration of `BaseDataFrame` whose header is
a sequence of owned strings and whose rows hold resolved cell values
directly (no shared string arena); that payload is modelled here as
`BaseDataFrameIO`. -/

/-- Model of `str::lines` (Rust std, modelled at its interface): split on `'\n'`,
without a trailing empty line when the string ends in a newline. -/
def rustLines (s : List Char) : List (List Char) :=
  if s = [] then []
  else if s.getLast? = some '\n' then (splitOnChar '\n' s).dropLast
  else splitOnChar '\n' s

/-- The header/value diagnostic pairing built by
`BaseDataFrame::create_error` (`file_io.rs` lines 140-153): zip the header
names against the row's cells, padding the shorter side with `None`. -/
def pairHeaderData : List (List Char) → List Data → List (Option (List Char) × Option Data)
  | h :: hs, d :: ds => (some h, some d) :: pairHeaderData hs ds
  | h :: hs, [] => (some h, none) :: pairHeaderData hs []
  | [], d :: ds => (none, some d) :: pairHeaderData [] ds
  | [], [] => []

/-- The structured content of the diagnostic `IoError` built by
`BaseDataFrame::create_error` (`file_io.rs` lines 134-174): the printed line
number is `line_index + 1`, the `more`/`less` tag compares the cell count
with the header length, and every header name is paired with the
corresponding (or missing/extra) cell. -/
structure ArityError where
  line : Nat
  moreEntries : Bool
  pairs : List (Option (List Char) × Option Data)

/-- Model of `BaseDataFrame::create_error` (`file_io.rs` lines 134-174). -/
def createError (lineIndex : Nat) (lineData : List Data) (header : List (List Char)) :
    ArityError :=
  ⟨lineIndex + 1, decide (header.length < lineData.length), pairHeaderData header lineData⟩

/-- The recoverable `IoError` outcomes of `BaseDataFrame::from_string`
(`file_io.rs` lines 77-132). -/
inductive IoErr where
  | emptyString                 -- "String is empty"
  | invalidHeader               -- "File has no valid Header"
  | arity (e : ArityError)      -- create_error diagnostic

/-- The `BaseDataFrame` of the design iteration that `file_io.rs` was
written against: header names as owned strings, rows of resolved cells. -/
structure BaseDataFrameIO where
  identity_index_map : List Nat
  header : List (List Char)
  data : List (List Data)

/-- Model of `BaseDataFrame::try_build_header` (`file_io.rs` lines 122-132): every
token of the header line must have decoded as a plain `String`. -/
def tryBuildHeader : List Data → Except IoErr (List (List Char))
  | [] => Except.ok []
  | Data.str s :: rest => (tryBuildHeader rest).map (fun hs => s :: hs)
  | _ :: _ => Except.error IoErr.invalidHeader

/-- The row-ingestion loop of `BaseDataFrame::from_string` (`file_io.rs`
lines 86-94): tokenize each enumerated line, fail with the `create_error`
diagnostic on the first arity mismatch.  The outer `Option` models a
tokenizer panic (missing close symbol). -/
def ingestRows (header : List (List Char)) :
    List (Nat × List Char) → Char → Option (Except IoErr (List (List Data)))
  | [], _ => some (Except.ok [])
  | (i, line) :: rest, sep =>
    match parseLine line sep with
    | none => none
    | some lineData =>
      if lineData.length ≠ header.length then
        some (Except.error (IoErr.arity (createError i lineData header)))
      else
        (ingestRows header rest sep).map (fun r => r.map (fun ds => lineData :: ds))

/-- Model of `BaseDataFrame::from_string` (`file_io.rs` lines 77-101).  The separator
defaults to `','`; the first enumerated line is the header; every following
line is validated for arity against the header.  The outer `Option` models
a tokenizer panic. -/
def fromString (s : List Char) (sep : Option Char) :
    Option (Except IoErr BaseDataFrameIO) :=
  let sepc := sep.getD ','
  match rustLines s |>.enum with
  | [] => some (Except.error IoErr.emptyString)
  | (_, rawHeader) :: rest =>
    match parseLine rawHeader sepc with
    | none => none
    | some headerToks =>
      match tryBuildHeader headerToks with
      | Except.error e => some (Except.error e)
      | Except.ok header =>
        (ingestRows header rest sepc).map (fun r =>
          r.map (fun data =>
            ⟨List.range header.length, header, data⟩))

/-! ## The storage-and-view engine (`data_frame.rs`) -/

/-- Model of `BaseDataFrame` (`data_frame.rs` lines 22-27): the canonical owned
storage.  Header slots are byte ranges into `string_storage`; rows are
row-major stored cells; `identity_index_map` is the `0..header.len()`
column map handed to `Line`s resolved at a `Base` node. -/
structure BaseDataFrame where
  string_storage : List Char
  identity_index_map : List Nat
  header : List (Nat × Nat)
  data : List (List InnerData)

/-- The view tree `InnerDataFrame` (`data_frame.rs` lines 55-67).  The
reference-counted `Arc` indirection only affects sharing cost, not
observable content, so a `DataFrame` is modelled as its view tree. -/
inductive DataFrame where
  | base (df : BaseDataFrame)
  | columnReorder (df : DataFrame) (index_map : List Nat)
  | lineReorder (df : DataFrame) (index_map : List Nat)

/-- Model of `Line` (`data_frame.rs` line 299 together with `line.rs`): a resolved
row handle; the string storage of the owning base table, the concrete
backing row, and the currently-applicable column index map. -/
structure Line where
  storage : List Char
  line : List InnerData
  index_map : List Nat

instance : Inhabited Line := ⟨⟨[], [], []⟩⟩

/-- Model of `Line::with_index_map` (`line.rs` line 30): replace the column map. -/
def Line.withIndexMap (l : Line) (m : List Nat) : Line :=
  ⟨l.storage, l.line, m⟩

/-- Model of `InnerData::as_data` (`data.rs` lines 22-38): decode a stored cell
against the owning storage, resolving string ranges. -/
def InnerData.asData (st : List Char) : InnerData → Data
  | InnerData.str a b => Data.str (sliceCL st a b)
  | InnerData.int n => Data.int n
  | InnerData.float q => Data.float q
  | InnerData.bool b => Data.bool b
  | InnerData.date d => Data.date d
  | InnerData.vec xs => Data.vec (asDataList st xs)
  | InnerData.vec2d x y => Data.vec2d x y
where
  /-- Helper: `as_data` mapped over a stored vector cell. -/
  asDataList (st : List Char) : List InnerData → List Data
    | [] => []
    | x :: xs => x.asData st :: asDataList st xs

/-- Model of `DataFrame::len` (`data_frame.rs` lines 167-173). -/
def DataFrame.len : DataFrame → Nat
  | DataFrame.base df => df.data.length
  | DataFrame.lineReorder _ m => m.length
  | DataFrame.columnReorder df _ => df.len

/-- Model of `DataFrame::num_columns` (`data_frame.rs` lines 175-181). -/
def DataFrame.numColumns : DataFrame → Nat
  | DataFrame.base df => df.header.length
  | DataFrame.lineReorder df _ => df.numColumns
  | DataFrame.columnReorder _ m => m.length

/-- Model of `DataFrame::get` (`data_frame.rs` lines 294-309): the row resolver.
`Base` indexes storage directly (with the identity column map),
`LineReorder` maps the logical index through its `index_map` and recurses,
`ColumnReorder` recurses and re-tags the resulting row with its own column
map. -/
def DataFrame.get : DataFrame → Nat → Option Line
  | DataFrame.base df, i =>
    (df.data.get? i).map (fun l => ⟨df.string_storage, l, df.identity_index_map⟩)
  | DataFrame.lineReorder df m, i => (m.get? i).bind (fun j => df.get j)
  | DataFrame.columnReorder df m, i => (df.get i).map (fun l => l.withIndexMap m)

/-- Model of `DataFrame::get_on_header` (`data_frame.rs` lines 311-323): the header
resolver; `LineReorder` nodes are transparent, `ColumnReorder` maps the
column index through its `index_map`.  (At a `Base` node the source slices
the arena through `String::get(..).expect(..)`; the well-formedness
invariant `BaseWF` keeps every issued range valid, so the slice model is
total here.) -/
def DataFrame.getOnHeader : DataFrame → Nat → Option (List Char)
  | DataFrame.base df, j => (df.header.get? j).map (fun r => sliceCL df.string_storage r.1 r.2)
  | DataFrame.lineReorder df _, j => df.getOnHeader j
  | DataFrame.columnReorder df m, j => (m.get? j).bind (fun i => df.getOnHeader i)

/-- Model of `HeaderIter` (`data_frame.rs` lines 286-288 and 396-445): the header
names in logical order `0..num_columns` (the iterator asserts every lookup
succeeds; on a well-formed frame it does). -/
def DataFrame.headerL (df : DataFrame) : List (List Char) :=
  (List.range df.numColumns).map (fun j => (df.getOnHeader j).getD [])

/-- Model of `Line::iter` resolved to cell values (`data_frame.rs` line 92 uses the
iterated cells of a row): each entry of the column index map indexes the
backing row, and the stored cell is decoded against the owning storage. -/
def Line.cells (l : Line) : List Data :=
  l.index_map.map (fun j => ((l.line.getD j default).asData l.storage))

/-- Model of `LineIter` over a view (`data_frame.rs` lines 290-292 and 335-384)
resolved to cell values: the rows in logical order `0..len` (the iterator
asserts every `get` succeeds; on a well-formed frame it does). -/
def DataFrame.rowsData (df : DataFrame) : List (List Data) :=
  (List.range df.len).map (fun i => ((df.get i).getD default).cells)

/-- Model of `DataFrame::new` (`data_frame.rs` lines 109-126): intern the header
names into a fresh storage, no rows. -/
def DataFrame.new (header : List (List Char)) : DataFrame :=
  let step :
      List Char × List (Nat × Nat) → List Char → List Char × List (Nat × Nat) :=
    fun acc s => (acc.1 ++ s, acc.2 ++ [(acc.1.length, acc.1.length + s.length)])
  let built := header.foldl step ([], [])
  DataFrame.base ⟨built.1, List.range built.2.length, built.2, []⟩

/-- Model of `DataFrame::head` (`data_frame.rs` lines 128-139). -/
def DataFrame.head (df : DataFrame) (lines : Nat) : DataFrame :=
  if lines < df.len then DataFrame.lineReorder df (List.range lines) else df

/-- Model of `DataFrame::tail` (`data_frame.rs` lines 141-152). -/
def DataFrame.tail (df : DataFrame) (lines : Nat) : DataFrame :=
  if lines < df.len then
    DataFrame.lineReorder df (List.range' (df.len - lines) lines)
  else df

/-- The outcome of a call that may hit a Rust `assert!`. -/
inductive PanicOr (α : Type) where
  | panic
  | ok (a : α)

/-- Model of `DataFrame::range` (`data_frame.rs` lines 154-165): `assert!(start <=
end)` and `assert!(end <= self.len())`, then row-select `[start, end)`.
The failed assertion is a Rust panic (process-fatal), modelled as
`PanicOr.panic`; no recoverable error value exists at this call. -/
def DataFrame.rangeRows (df : DataFrame) (start stop : Nat) : PanicOr DataFrame :=
  if start ≤ stop ∧ stop ≤ df.len then
    PanicOr.ok (DataFrame.lineReorder df (List.range' start (stop - start)))
  else PanicOr.panic

/-- Model of `DataFrame::sort` (`data_frame.rs` lines 187-205): compute the key of
every logical row, stably sort the identity index map by key, wrap as
`LineReorder`.  Rust's `sort_by_key` is a stable sort, and a stable
sort-by-key is extensionally unique, so `List.mergeSort` (which is stable)
models it exactly. -/
def DataFrame.sortIndexMap {K : Type} [LinearOrder K] (df : DataFrame)
    (keyGen : Line → K) : List Nat :=
  let keyAt : Nat → K := fun i => keyGen ((df.get i).getD default)
  (List.range df.len).mergeSort (fun i j => decide (keyAt i ≤ keyAt j))

/-- Model of `DataFrame::sort` wrapped as a view node. -/
def DataFrame.sortBy {K : Type} [LinearOrder K] (df : DataFrame)
    (keyGen : Line → K) : DataFrame :=
  DataFrame.lineReorder df (df.sortIndexMap keyGen)

/-- Model of `DataFrame::filter` (`data_frame.rs` lines 241-256): keep the logical
row indices satisfying the predicate, in order. -/
def DataFrame.filterRows (df : DataFrame) (p : Line → Bool) : DataFrame :=
  DataFrame.lineReorder df
    ((List.range df.len).filter (fun i => p ((df.get i).getD default)))

/-- Model of `DataFrame::drop_column` (`data_frame.rs` lines 207-219) with the
column index already resolved (`DataFrameColumnIndex::get_usize`). -/
def DataFrame.dropColumn (df : DataFrame) (idx : Nat) : DataFrame :=
  DataFrame.columnReorder df ((List.range df.numColumns).filter (fun j => j ≠ idx))

/-- Model of `DataFrame::drop_all_column_except` (`data_frame.rs` lines 221-231)
with the column indices already resolved. -/
def DataFrame.dropAllColumnExcept (df : DataFrame) (idxs : List Nat) : DataFrame :=
  DataFrame.columnReorder df idxs

/-! ## Grouping (`DataFrame::group_by`, `data_frame.rs` lines 258-284) -/

/-- One `map.entry(key).or_default().push(i)` step of `group_by`, on an
association-list model of the bucket map: append `i` to the bucket of `g`,
creating the bucket at first occurrence.  The entry order of this list is
first-occurrence order; the hash map's own (arbitrary) iteration order is
quantified over separately in the ordering theorem. -/
def addToBuckets {G : Type} [DecidableEq G] :
    List (G × List Nat) → G → Nat → List (G × List Nat)
  | [], g, i => [(g, [i])]
  | (k, l) :: rest, g, i =>
    if k = g then (k, l ++ [i]) :: rest
    else (k, l) :: addToBuckets rest g i

/-- The bucket map built by the `group_by` loop over the enumerated rows,
keyed by each row's computed key. -/
def bucketsOf {G : Type} [DecidableEq G] (keys : List G) : List (G × List Nat) :=
  keys.enum.foldl (fun bs p => addToBuckets bs p.2 p.1) []

/-- The key of each logical row, as computed once per row by `group_by`
(and by `sort`). -/
def DataFrame.groupKeys {G : Type} (df : DataFrame) (grouper : Line → G) : List G :=
  (List.range df.len).map (fun i => grouper ((df.get i).getD default))

/-- Model of `DataFrame::group_by` (`data_frame.rs` lines 258-284): bucket row
indices by key, sort the drained bucket list by each bucket's first row
index (`map.sort_by_key(|(_g, vec)| vec[0])`), and wrap each bucket as a
`LineReorder` over the (un-grouped) view.  The sorted result is independent
of the hash map's drain order (`groupBy_first_occurrence_order` below), and
equals the first-occurrence-ordered bucket list, which is therefore used as
the definition. -/
def DataFrame.groupBy {G : Type} [DecidableEq G] (df : DataFrame)
    (grouper : Line → G) : List (G × DataFrame) :=
  (bucketsOf (df.groupKeys grouper)).map (fun b => (b.1, DataFrame.lineReorder df b.2))

/-! ## Materialization (`impl From<DataFrame> for BaseDataFrame`,
`data_frame.rs` lines 69-106) -/

/-- Interning one string into the append-only storage: the returned range
is `storage.len() .. storage.len() + s.len()` (`data_frame.rs` lines
83-88). -/
def internStr (st s : List Char) : (Nat × Nat) × List Char :=
  ((st.length, st.length + s.length), st ++ s)

/-- The header-interning loop of the expensive materialization path
(`data_frame.rs` lines 81-88), threading the growing storage. -/
def internHeaderRanges : List (List Char) → List Char → List (Nat × Nat) × List Char
  | [], st => ([], st)
  | h :: rest, st =>
    let r := internStr st h
    let built := internHeaderRanges rest r.2
    (r.1 :: built.1, built.2)

/-- Model of `Data::into_inner_data` (`data.rs` lines 105-125): re-intern a resolved
cell into the given storage, recursively for vector cells. -/
def Data.intoInner : Data → List Char → InnerData × List Char
  | Data.str s, st =>
    let r := internStr st s
    (InnerData.str r.1.1 r.1.2, r.2)
  | Data.int n, st => (InnerData.int n, st)
  | Data.float q, st => (InnerData.float q, st)
  | Data.bool b, st => (InnerData.bool b, st)
  | Data.date d, st => (InnerData.date d, st)
  | Data.vec xs, st =>
    let built := intoInnerList xs st
    (InnerData.vec built.1, built.2)
  | Data.vec2d x y, st => (InnerData.vec2d x y, st)
where
  /-- Helper: `into_inner_data` mapped over the cells of a vector (or of a row),
  threading the storage left to right. -/
  intoInnerList : List Data → List Char → List InnerData × List Char
    | [], st => ([], st)
    | d :: ds, st =>
      let c := Data.intoInner d st
      let cs := intoInnerList ds c.2
      (c.1 :: cs.1, cs.2)

/-- The row-interning loop of the expensive materialization path
(`data_frame.rs` lines 90-97). -/
def internRows : List (List Data) → List Char → List (List InnerData) × List Char
  | [], st => ([], st)
  | row :: rows, st =>
    let r := Data.intoInner.intoInnerList row st
    let rs := internRows rows r.2
    (r.1 :: rs.1, rs.2)

/-- The expensive materialization path (`data_frame.rs` lines 81-104):
enumerate every logical header name and row through the resolver,
re-interning into a fresh arena. -/
def materializeExpensive (df : DataFrame) : BaseDataFrame :=
  let hdr := internHeaderRanges df.headerL []
  let rows := internRows df.rowsData hdr.2
  ⟨rows.2, List.range hdr.1.length, hdr.1, rows.1⟩

/-- The cheap materialization path (`data_frame.rs` lines 71-75): when the
view is exactly a uniquely-owned `Base` node, move the `BaseDataFrame` out.
`none` means the cheap path does not apply and the source falls through to
the expensive path. -/
def cheapMaterialize : DataFrame → Option BaseDataFrame
  | DataFrame.base df => some df
  | _ => none

/-- The header names of a `BaseDataFrame`, resolved against its arena. -/
def baseHeaderL (b : BaseDataFrame) : List (List Char) :=
  b.header.map (fun r => sliceCL b.string_storage r.1 r.2)

/-- The rows of a `BaseDataFrame`, each cell decoded against its arena. -/
def baseRows (b : BaseDataFrame) : List (List Data) :=
  b.data.map (fun row => InnerData.asData.asDataList b.string_storage row)

/-- Table-content equality: same header names and same decoded cells in
the same row/column order (storage layout may differ). -/
def BaseContentEq (a b : BaseDataFrame) : Prop :=
  baseHeaderL a = baseHeaderL b ∧ baseRows a = baseRows b

/-- The `BaseDataFrame` invariant (spec §3): the identity column map is
`0..header.len()` and every row has exactly one cell per header slot.
Every constructor in the source establishes it. -/
def BaseWF (b : BaseDataFrame) : Prop :=
  b.identity_index_map = List.range b.header.length ∧
  ∀ row ∈ b.data, row.length = b.header.length

/-- Row-level well-formedness of a view tree: every `LineReorder` map entry
addresses an existing parent row.  Every public transformation produces
only such maps (`Built_RowWF` below). -/
def RowWF : DataFrame → Prop
  | DataFrame.base _ => True
  | DataFrame.lineReorder df m => RowWF df ∧ ∀ i ∈ m, i < df.len
  | DataFrame.columnReorder df _ => RowWF df

/-- The frames reachable from the public constructors and transformations
of `DataFrame` (`new`, `head`, `tail`, `range` with arguments passing its
assertions, `sort`, `filter`, `drop_column`, `drop_all_column_except`, and
the sub-views handed out by `group_by`). -/
inductive Built : DataFrame → Prop where
  | new (header : List (List Char)) : Built (DataFrame.new header)
  | head {df : DataFrame} (n : Nat) : Built df → Built (df.head n)
  | tail {df : DataFrame} (n : Nat) : Built df → Built (df.tail n)
  | rangeRows {df : DataFrame} {start stop : Nat} {out : DataFrame} :
      Built df → df.rangeRows start stop = PanicOr.ok out → Built out
  | sortBy {df : DataFrame} {K : Type} [LinearOrder K] (keyGen : Line → K) :
      Built df → Built (df.sortBy keyGen)
  | filterRows {df : DataFrame} (p : Line → Bool) :
      Built df → Built (df.filterRows p)
  | dropColumn {df : DataFrame} (idx : Nat) : Built df → Built (df.dropColumn idx)
  | dropAllColumnExcept {df : DataFrame} (idxs : List Nat) :
      Built df → Built (df.dropAllColumnExcept idxs)
  | groupBy {df : DataFrame} {G : Type} [DecidableEq G] (grouper : Line → G)
      {g : G} {sub : DataFrame} :
      Built df → (g, sub) ∈ df.groupBy grouper → Built sub

/-- The row index map of a view node: the `index_map` field of a
`LineReorder` (`[]` at other nodes).  A `LineReorder` sub-view presents
parent row `index_map[i]` as its logical row `i`, so "parent row `j`
appears in this sub-view" is exactly `j ∈ lineIndexMap`. -/
def DataFrame.lineIndexMap : DataFrame → List Nat
  | DataFrame.lineReorder _ m => m
  | _ => []

/-- The key `sort` computes for logical row `i` (`key_gen(line)` at
`data_frame.rs` lines 193-197). -/
def DataFrame.keyAt {K : Type} (df : DataFrame) (keyGen : Line → K) (i : Nat) : K :=
  keyGen ((df.get i).getD default)

/-! ## Concrete fixtures used by the witnesses -/

/-- A base table with two (cell-less) rows. -/
def wBase2 : BaseDataFrame := ⟨[], [], [], [[], []]⟩

/-- Key extractor reading an integer out of a row's first cell. -/
def intKeyOf : Line → Int := fun l =>
  match l.cells.headI with
  | Data.int n => n
  | _ => 0

/-- A one-column base table with rows `5, 3, 3` (a key tie for the sort
stability witness). -/
def wSortBase : BaseDataFrame :=
  ⟨['k'], [0], [(0, 1)],
    [[InnerData.int 5], [InnerData.int 3], [InnerData.int 3]]⟩

/-- A one-column base table with rows `7, 8, 7, 9` (keys recurring out of
order, for the grouping witnesses). -/
def wGroupBase : BaseDataFrame :=
  ⟨['k'], [0], [(0, 1)],
    [[InnerData.int 7], [InnerData.int 8], [InnerData.int 7], [InnerData.int 9]]⟩

/-- A two-column base table holding a string cell and a nested vector cell
(for the materialization witness). -/
def wMatBase : BaseDataFrame :=
  ⟨"abxy".toList, [0, 1], [(0, 1), (1, 2)],
    [[InnerData.str 2 3, InnerData.vec [InnerData.str 3 4, InnerData.int 5]]]⟩

/-! ## Claim theorems -/

/-- C6: single-token type inference tries boolean, then 32-bit integer,
then 32-bit float, then timestamp, then two space-separated floats as
`Point2D`, then `String`, in that fixed order: `"42"` decodes as
`Integer(42)` even though it is also a valid float literal (the earlier
integer parser wins), `"3.14"` decodes as `Float` (the integer parser
rejects it), and `"true"` decodes as `Boolean`, not `String`. -/
theorem c6_type_inference_order :
    dataFromStr "42".toList = Data.int 42 ∧
    (parseF32 "42".toList).isSome = true ∧
    parseBool "42".toList = none ∧
    parseI32 "3.14".toList = none ∧
    (dataFromStr "3.14".toList).isFloat = true ∧
    (parseF32 "3.14".toList).isSome = true ∧
    dataFromStr "true".toList = Data.bool true ∧
    parseDate "1 2".toList = none ∧
    dataFromStr "1 2".toList = Data.vec2d 1 2 ∧
    dataFromStr "x".toList = Data.str "x".toList := by
  refine ⟨?_, ?_, ?_, ?_, ?_, ?_, ?_, ?_, ?_, ?_⟩ <;> with_unfolding_all rfl

/-- C5 (counterexample): `range` does not report invalid bounds as a
recoverable error value; the failed `assert!` is a Rust panic
(process-fatal).  On a two-row table, `start > end` panics and
`end > row count` panics; no `RangeError` value exists in the source. -/
theorem c5_counterexample :
    (DataFrame.base wBase2).rangeRows 2 1 = PanicOr.panic ∧
    (DataFrame.base wBase2).rangeRows 1 3 = PanicOr.panic := by
  constructor <;> with_unfolding_all rfl

/-- C5 (amended): `range(start, end)` hits a fatal `assert!` (a panic, not
a recoverable result) when `start > end` or `end > len`; for
`start <= end <= len` it returns the view selecting exactly the logical
rows `[start, end)` of the parent. -/
theorem c5_range_amended (df : DataFrame) (start stop : Nat) :
    (start ≤ stop → stop ≤ df.len →
      ∃ out, df.rangeRows start stop = PanicOr.ok out ∧
        out.len = stop - start ∧
        ∀ i, i < stop - start → out.get i = df.get (start + i)) ∧
    (¬ (start ≤ stop ∧ stop ≤ df.len) →
      df.rangeRows start stop = PanicOr.panic) := by
  constructor
  · intro h1 h2
    refine ⟨DataFrame.lineReorder df (List.range' start (stop - start)), ?_, ?_, ?_⟩
    · simp [DataFrame.rangeRows, h1, h2]
    · simp [DataFrame.len]
    · intro i hi
      simp [DataFrame.get, List.get?_eq_getElem?, List.getElem?_range' _ _ hi]
  · intro h
    simp only [DataFrame.rangeRows, if_neg h]

/-- C5 (witness for the amended theorem): on the two-row table, `range 0 1`
succeeds and selects row `0`. -/
theorem c5_range_amended_witness :
    ∃ out, (DataFrame.base wBase2).rangeRows 0 1 = PanicOr.ok out ∧
      out.len = 1 - 0 ∧
      ∀ i, i < 1 - 0 → out.get i = (DataFrame.base wBase2).get (0 + i) :=
  (c5_range_amended (DataFrame.base wBase2) 0 1).1 (by decide)
    (by with_unfolding_all decide)

/-- C4 (counterexample): parsing the data line `"x,[1 2]"` against header
`"name,point"` stores the second cell as a `List` (`Data::Vector`)
containing the `Point2D`, not as a bare `Point2D`: the tokenizer wraps
every bracketed composite group in `Data::Vector` (`file_io.rs` line 219),
and `Data::Vector([Point2D((1.0, 2.0))])` is a different value than
`Point2D((1.0, 2.0))`. -/
theorem c4_counterexample :
    fromString "name,point\nx,[1 2]".toList none =
      some (Except.ok ⟨[0, 1], ["name".toList, "point".toList],
        [[Data.str "x".toList, Data.vec [Data.vec2d 1 2]]]⟩) ∧
    Data.vec [Data.vec2d 1 2] ≠ Data.vec2d 1 2 := by
  constructor
  · with_unfolding_all rfl
  · intro h
    cases h

/-- C4 (amended): parsing the data line `"x,[1 2]"` with separator `','`
against header `"name,point"` produces a row whose second cell is a `List`
containing exactly `Point2D((1.0, 2.0))`. -/
theorem c4_composite_cell :
    fromString "name,point\nx,[1 2]".toList none =
      some (Except.ok ⟨[0, 1], ["name".toList, "point".toList],
        [[Data.str "x".toList, Data.vec [Data.vec2d 1 2]]]⟩) := by
  with_unfolding_all rfl

/-- C8: ingesting header `"a,b,c"` with data line `"1,2"` fails with a
recoverable `ArityError` whose diagnostic references line 2 (the
enumerated line index plus one) and pairs each header name with the
corresponding cell (`c` paired with the missing `None`); and in general
the ingestion loop fails on the first enumerated line whose tokenized cell
count differs from the header length, with exactly the `create_error`
diagnostic for that line. -/
theorem c8_arity_error :
    (fromString "a,b,c\n1,2".toList none =
      some (Except.error (IoErr.arity
        ⟨2, false,
          [(some "a".toList, some (Data.int 1)),
           (some "b".toList, some (Data.int 2)),
           (some "c".toList, none)]⟩))) ∧
    ∀ (header : List (List Char)) (i : Nat) (line : List Char)
      (rest : List (Nat × List Char)) (sep : Char) (ld : List Data),
      parseLine line sep = some ld → ld.length ≠ header.length →
      ingestRows header ((i, line) :: rest) sep =
        some (Except.error (IoErr.arity (createError i ld header))) := by
  constructor
  · with_unfolding_all rfl
  · intro header i line rest sep ld hparse hlen
    simp [ingestRows, hparse, hlen]

/-- C8 (witness for the general conjunct): the offending line `"1,2"`
enumerated at index 1 against header `a,b,c` produces the line-2
diagnostic. -/
theorem c8_arity_error_witness :
    ingestRows ["a".toList, "b".toList, "c".toList] [(1, "1,2".toList)] ',' =
      some (Except.error (IoErr.arity
        (createError 1 [Data.int 1, Data.int 2]
          ["a".toList, "b".toList, "c".toList]))) :=
  c8_arity_error.2 ["a".toList, "b".toList, "c".toList] 1 "1,2".toList [] ','
    [Data.int 1, Data.int 2] (by with_unfolding_all rfl) (by decide)

/-- Lemma: `findIdx?` over a block with no match followed by a match finds the
match right after the block. -/
theorem findIdx?_no_match_append {p : Char → Bool} :
    ∀ (l : List Char) (i : Nat), (∀ x ∈ l, p x = false) →
    ∀ (y : Char) (r : List Char), p y = true →
      List.findIdx? p (l ++ y :: r) i = some (i + l.length)
  | [], i, _, y, r, hy => by simp [List.findIdx?_cons, hy]
  | x :: xs, i, hl, y, r, hy => by
    have hx : p x = false := hl x (List.mem_cons_self x xs)
    have ih := findIdx?_no_match_append xs (i + 1)
      (fun z hz => hl z (List.mem_cons_of_mem x hz)) y r hy
    simp only [List.cons_append, List.findIdx?_cons, hx, Bool.false_eq_true,
      if_false, ih, List.length_cons]
    congr 1
    omega

/-- C3 (counterexample): a composite cell followed by a separator and
further text does NOT yield exactly the composite cell and the following
cells; an extra empty `String` cell is inserted, because scanning resumes
immediately after the closing symbol without skipping the separator. -/
theorem c3_counterexample :
    parseLine "[1 2],y".toList ',' =
      some [Data.vec [Data.vec2d 1 2], Data.str [], Data.str "y".toList] ∧
    parseLine "[1 2],y".toList ',' ≠
      some [Data.vec [Data.vec2d 1 2], Data.str "y".toList] := by
  have h1 : parseLine "[1 2],y".toList ',' =
      some [Data.vec [Data.vec2d 1 2], Data.str [], Data.str "y".toList] := by
    with_unfolding_all rfl
  refine ⟨h1, ?_⟩
  rw [h1]
  intro h
  exact absurd (congrArg (fun o => (Option.getD o []).length) h) (by decide)

/-- A bracketed group whose inner text contains no close symbol is cut out
as a `grouped` step, and scanning resumes at the text immediately after
the close symbol (the separator, if one follows, is not consumed). -/
theorem chunkStep_group (inner rest : List Char) (sep : Char) (hin : ']' ∉ inner) :
    chunkStep ('[' :: (inner ++ ']' :: rest)) sep = ChunkStep.grouped inner rest := by
  have hne : ∀ x ∈ inner, (decide (x = ']')) = false := fun x hx =>
    decide_eq_false (fun h => hin (h ▸ hx))
  have hdw : List.dropWhile (fun c => c.isWhitespace) ('[' :: (inner ++ ']' :: rest)) =
      '[' :: (inner ++ ']' :: rest) := by
    rw [List.dropWhile_cons]
    simp
  have hfind : List.findIdx? (fun c => decide (c = ']'))
      ('[' :: (inner ++ ']' :: rest)) = some (1 + inner.length) := by
    rw [List.findIdx?_cons]
    simp only [show (decide ('[' = ']')) = false from rfl, Bool.false_eq_true, if_false]
    exact findIdx?_no_match_append inner 1 hne ']' rest (by simp)
  have hlen : ('[' :: (inner ++ ']' :: rest)).length = inner.length + rest.length + 2 := by
    simp [List.length_append]
    omega
  have hslice : sliceCL ('[' :: (inner ++ ']' :: rest))
      (ceilCB ('[' :: (inner ++ ']' :: rest)) 1) (1 + inner.length) = inner := by
    have hceil : ceilCB ('[' :: (inner ++ ']' :: rest)) 1 = 1 := by
      simp [ceilCB, hlen]
    rw [hceil]
    show (List.take (1 + inner.length) ('[' :: (inner ++ ']' :: rest))).drop 1 = inner
    rw [show 1 + inner.length = inner.length + 1 from by omega]
    rw [List.take_succ_cons]
    rw [List.take_left]
    simp
  have hdrop : ('[' :: (inner ++ ']' :: rest)).drop
      (ceilCB ('[' :: (inner ++ ']' :: rest)) (1 + inner.length + 1)) = rest := by
    have hceil : ceilCB ('[' :: (inner ++ ']' :: rest)) (1 + inner.length + 1) =
        inner.length + 2 := by
      simp [ceilCB, hlen]
      omega
    rw [hceil]
    have hsplit : '[' :: (inner ++ ']' :: rest) = ('[' :: (inner ++ [']'])) ++ rest := by
      simp
    rw [hsplit, show inner.length + 2 = ('[' :: (inner ++ [']'])).length from by simp,
      List.drop_left]
  simp only [chunkStep]
  rw [hdw]
  simp only [List.head?_cons, show closerFor '[' = some ']' from rfl]
  rw [hfind]
  simp only [hslice, hdrop]

/-- A text starting with the separator yields an empty `String` cell and
scanning resumes after the separator. -/
theorem chunkStep_sep_cell (rest : List Char) (sep : Char)
    (hsw : sep.isWhitespace = false) (hsc : closerFor sep = none) :
    chunkStep (sep :: rest) sep = ChunkStep.plain (Data.str []) rest := by
  have hdw : List.dropWhile (fun c => c.isWhitespace) (sep :: rest) = sep :: rest := by
    rw [List.dropWhile_cons]
    simp [hsw]
  have hfind : List.findIdx? (fun c => decide (c = sep)) (sep :: rest) = some 0 := by
    rw [List.findIdx?_cons]
    simp
  simp only [chunkStep, hdw, List.head?_cons, hsc, hfind]
  have hceil : ceilCB (sep :: rest) (0 + 1) = 1 := by
    simp [ceilCB]
  simp only [hceil]
  have : sliceCL (sep :: rest) 0 0 = [] := rfl
  rw [this]
  simp [show dataFromStr [] = Data.str [] from rfl]

/-- Unfolding `parseLine` at a `grouped` tokenizer step. -/
theorem parseLine_grouped {s : List Char} {sep : Char} {innerStr rest : List Char}
    (h : chunkStep s sep = ChunkStep.grouped innerStr rest) :
    parseLine s sep =
      match parseLine innerStr sep with
      | none => none
      | some xs =>
        match parseLine rest sep with
        | none => none
        | some ds => some (Data.vec xs :: ds) := by
  rw [parseLine]
  split
  · rename_i heq
    rw [h] at heq
    cases heq
  · rename_i heq
    rw [h] at heq
    cases heq
  · rename_i i' r' heq
    rw [h] at heq
    cases heq
    rfl
  · rename_i d r' heq
    rw [h] at heq
    cases heq

/-- Unfolding `parseLine` at a `plain` tokenizer step. -/
theorem parseLine_plain {s : List Char} {sep : Char} {d : Data} {rest : List Char}
    (h : chunkStep s sep = ChunkStep.plain d rest) :
    parseLine s sep =
      match parseLine rest sep with
      | none => none
      | some ds => some (d :: ds) := by
  rw [parseLine]
  split
  · rename_i heq
    rw [h] at heq
    cases heq
  · rename_i heq
    rw [h] at heq
    cases heq
  · rename_i i' r' heq
    rw [h] at heq
    cases heq
  · rename_i d' r' heq
    rw [h] at heq
    cases heq
    rfl

/-- C3 (amended): after a bracketed composite group the tokenizer resumes
scanning at the text immediately after the closing symbol and does NOT
skip a separator standing there; consequently a composite cell followed by
a separator and further text yields the composite cell, then an extra
empty `String` cell, and then the cells of the following text. -/
theorem c3_resume_after_closer (inner rest : List Char) (sep : Char)
    (hin : ']' ∉ inner) (hsw : sep.isWhitespace = false)
    (hsc : closerFor sep = none) :
    chunkStep ('[' :: (inner ++ ']' :: rest)) sep = ChunkStep.grouped inner rest ∧
    (∀ xs ys, parseLine inner sep = some xs → parseLine rest sep = some ys →
      parseLine ('[' :: (inner ++ ']' :: sep :: rest)) sep =
        some (Data.vec xs :: Data.str [] :: ys)) := by
  refine ⟨chunkStep_group inner rest sep hin, ?_⟩
  intro xs ys hxs hys
  have h1 : chunkStep ('[' :: (inner ++ ']' :: sep :: rest)) sep =
      ChunkStep.grouped inner (sep :: rest) :=
    chunkStep_group inner (sep :: rest) sep hin
  have h2 : parseLine (sep :: rest) sep = some (Data.str [] :: ys) := by
    rw [parseLine_plain (chunkStep_sep_cell rest sep hsw hsc), hys]
  rw [parseLine_grouped h1, hxs, h2]

/-- C3 (witness for the amended theorem): `"[1 2],y"` tokenizes to the
composite cell, an empty string cell, and the cell `"y"`. -/
theorem c3_resume_after_closer_witness :
    chunkStep ('[' :: ("1 2".toList ++ ']' :: "y".toList)) ',' =
      ChunkStep.grouped "1 2".toList "y".toList ∧
    parseLine ('[' :: ("1 2".toList ++ ']' :: ',' :: "y".toList)) ',' =
      some [Data.vec [Data.vec2d 1 2], Data.str [], Data.str "y".toList] := by
  have h := c3_resume_after_closer "1 2".toList "y".toList ','
    (by decide) (by decide) (by decide)
  exact ⟨h.1, h.2 [Data.vec2d 1 2] [Data.str "y".toList]
    (by with_unfolding_all rfl) (by with_unfolding_all rfl)⟩

/-! ## Bucket-map lemmas for `group_by` -/

/-- Processing one more row appends one `addToBuckets` step. -/
theorem bucketsOf_append {G : Type} [DecidableEq G] (keys : List G) (g : G) :
    bucketsOf (keys ++ [g]) = addToBuckets (bucketsOf keys) g keys.length := by
  unfold bucketsOf
  rw [List.enum_append, List.foldl_append]
  rfl

/-- Every bucket after an `addToBuckets` step is an untouched old bucket,
an old bucket of the inserted key extended with the new row index, or the
fresh bucket of a first-seen key. -/
theorem addToBuckets_mem_cases {G : Type} [DecidableEq G] :
    ∀ (bs : List (G × List Nat)) (g : G) (i : Nat) (b : G × List Nat),
      b ∈ addToBuckets bs g i →
      b ∈ bs ∨ (∃ l, (b.1, l) ∈ bs ∧ b = (b.1, l ++ [i])) ∨
        (b = (g, [i]) ∧ g ∉ bs.map Prod.fst)
  | [], g, i, b, hb => by
    have hbe : b = (g, [i]) := by simpa [addToBuckets] using hb
    exact Or.inr (Or.inr ⟨hbe, by simp⟩)
  | (k, l) :: rest, g, i, b, hb => by
    by_cases hk : k = g
    · rw [addToBuckets, if_pos hk] at hb
      rcases List.mem_cons.mp hb with hb | hb
      · exact Or.inr (Or.inl ⟨l, by simp [hb], by simp [hb]⟩)
      · exact Or.inl (List.mem_cons_of_mem _ hb)
    · rw [addToBuckets, if_neg hk] at hb
      rcases List.mem_cons.mp hb with hb | hb
      · exact Or.inl (by simp [hb])
      · rcases addToBuckets_mem_cases rest g i b hb with h | ⟨l', hl', hb'⟩ | ⟨hb', hg⟩
        · exact Or.inl (List.mem_cons_of_mem _ h)
        · exact Or.inr (Or.inl ⟨l', List.mem_cons_of_mem _ hl', hb'⟩)
        · refine Or.inr (Or.inr ⟨hb', ?_⟩)
          simp only [List.map_cons, List.mem_cons]
          rintro (h | h)
          · exact hk h.symm
          · exact hg h

/-- The keys after an `addToBuckets` step: unchanged when the key was
already present, the new key appended at the end otherwise. -/
theorem addToBuckets_fst {G : Type} [DecidableEq G] :
    ∀ (bs : List (G × List Nat)) (g : G) (i : Nat),
      (addToBuckets bs g i).map Prod.fst =
        if g ∈ bs.map Prod.fst then bs.map Prod.fst
        else bs.map Prod.fst ++ [g]
  | [], g, i => by simp [addToBuckets]
  | (k, l) :: rest, g, i => by
    by_cases hk : k = g
    · rw [addToBuckets, if_pos hk]
      have : g ∈ ((k, l) :: rest).map Prod.fst := by
        simp [List.mem_cons, hk.symm]
      rw [if_pos this]
      simp
    · rw [addToBuckets, if_neg hk]
      simp only [List.map_cons]
      rw [addToBuckets_fst rest g i]
      by_cases hmem : g ∈ rest.map Prod.fst
      · rw [if_pos hmem, if_pos (by simp [List.mem_cons, hmem])]
      · rw [if_neg hmem,
          if_neg (fun h => by
            rcases List.mem_cons.mp h with h | h
            · exact hk h.symm
            · exact hmem h)]
        simp

/-- The flattened row indices after an `addToBuckets` step are the old
ones plus the new row index. -/
theorem addToBuckets_flatten {G : Type} [DecidableEq G] :
    ∀ (bs : List (G × List Nat)) (g : G) (i : Nat),
      List.Perm ((addToBuckets bs g i).map Prod.snd).flatten
        (i :: (bs.map Prod.snd).flatten)
  | [], g, i => by simp [addToBuckets]
  | (k, l) :: rest, g, i => by
    by_cases hk : k = g
    · rw [addToBuckets, if_pos hk]
      simp only [List.map_cons, List.flatten_cons]
      rw [List.append_assoc]
      exact List.perm_middle
    · rw [addToBuckets, if_neg hk]
      simp only [List.map_cons, List.flatten_cons]
      exact ((addToBuckets_flatten rest g i).append_left l).trans List.perm_middle

/-- The first element of a list extended on the right. -/
theorem headI_append_singleton {l : List Nat} (h : l ≠ []) (i : Nat) :
    (l ++ [i]).headI = l.headI := by
  cases l with
  | nil => exact absurd rfl h
  | cons a t => rfl

/-- Lemma: `addToBuckets` keeps the buckets ordered by first-seen row index when
the new row index is beyond every first-seen index. -/
theorem addToBuckets_pairwise_headI {G : Type} [DecidableEq G] :
    ∀ (bs : List (G × List Nat)) (g : G) (i : Nat),
      (∀ b ∈ bs, b.2 ≠ []) → (∀ b ∈ bs, b.2.headI < i) →
      bs.Pairwise (fun a b => a.2.headI < b.2.headI) →
      (addToBuckets bs g i).Pairwise (fun a b => a.2.headI < b.2.headI)
  | [], g, i, _, _, _ => by simp [addToBuckets]
  | (k, l) :: rest, g, i, hne, hlt, hp => by
    rw [List.pairwise_cons] at hp
    by_cases hk : k = g
    · rw [addToBuckets, if_pos hk, List.pairwise_cons]
      refine ⟨?_, hp.2⟩
      intro b hb
      have hh : ((l ++ [i]) : List Nat).headI = l.headI :=
        headI_append_singleton (hne (k, l) (List.mem_cons_self _ _)) i
      show ((l ++ [i]) : List Nat).headI < b.2.headI
      rw [hh]
      exact hp.1 b hb
    · rw [addToBuckets, if_neg hk, List.pairwise_cons]
      constructor
      · intro b hb
        rcases addToBuckets_mem_cases rest g i b hb with h | ⟨l', hl', hb'⟩ | ⟨hb', _⟩
        · exact hp.1 b h
        · have h1 := hp.1 (b.1, l') hl'
          have h2 : b.2.headI = l'.headI := by
            rw [hb']
            exact headI_append_singleton (hne (b.1, l') (List.mem_cons_of_mem _ hl')) i
          show (k, l).2.headI < b.2.headI
          rw [h2]
          exact h1
        · rw [hb']
          exact hlt (k, l) (List.mem_cons_self _ _)
      · exact addToBuckets_pairwise_headI rest g i
          (fun b hb => hne b (List.mem_cons_of_mem _ hb))
          (fun b hb => hlt b (List.mem_cons_of_mem _ hb)) hp.2

/-- The `group_by` bucket-map invariant, by induction over the processed
rows: every bucket is a nonempty strictly increasing list of row indices
below the row count; the buckets' indices together are a permutation of
all row indices; bucket keys are pairwise distinct; and the bucket list is
ordered by each bucket's first-seen row index. -/
theorem bucketsOf_inv {G : Type} [DecidableEq G] (keys : List G) :
    (∀ b ∈ bucketsOf keys,
      b.2 ≠ [] ∧ b.2.Pairwise (· < ·) ∧ ∀ x ∈ b.2, x < keys.length) ∧
    List.Perm ((bucketsOf keys).map Prod.snd).flatten (List.range keys.length) ∧
    ((bucketsOf keys).map Prod.fst).Nodup ∧
    (bucketsOf keys).Pairwise (fun a b => a.2.headI < b.2.headI) := by
  induction keys using List.reverseRecOn with
  | nil =>
    refine ⟨?_, ?_, ?_, ?_⟩ <;> simp [bucketsOf]
  | append_singleton keys g IH =>
    obtain ⟨I1, I2, I3, I4⟩ := IH
    have hbnd : ∀ b ∈ bucketsOf keys, b.2.headI < keys.length := by
      intro b hb
      obtain ⟨hne, _, hlt⟩ := I1 b hb
      apply hlt
      cases hl : b.2 with
      | nil => exact absurd hl hne
      | cons a t => simp [hl]
    rw [bucketsOf_append]
    have hlen : (keys ++ [g]).length = keys.length + 1 := by simp
    refine ⟨?_, ?_, ?_, ?_⟩
    · intro b hb
      rcases addToBuckets_mem_cases (bucketsOf keys) g keys.length b hb with
        h | ⟨l', hl', hb'⟩ | ⟨hb', _⟩
      · obtain ⟨hne, hpw, hlt⟩ := I1 b h
        exact ⟨hne, hpw, fun x hx => by rw [hlen]; exact Nat.lt_succ_of_lt (hlt x hx)⟩
      · obtain ⟨hne, hpw, hlt⟩ := I1 (b.1, l') hl'
        have hsnd : b.2 = l' ++ [keys.length] := by rw [hb']
        refine ⟨?_, ?_, ?_⟩
        · rw [hsnd]
          simp
        · rw [hsnd, List.pairwise_append]
          refine ⟨hpw, by simp, ?_⟩
          intro x hx y hy
          rw [List.mem_singleton.mp hy]
          exact hlt x hx
        · intro x hx
          rw [hsnd] at hx
          rw [hlen]
          rcases List.mem_append.mp hx with hx | hx
          · exact Nat.lt_succ_of_lt (hlt x hx)
          · rw [List.mem_singleton.mp hx]
            exact Nat.lt_succ_self _
      · refine ⟨by simp [hb'], by simp [hb'], ?_⟩
        intro x hx
        rw [hb'] at hx
        have hxe : x = keys.length := by simpa using hx
        rw [hxe, hlen]
        exact Nat.lt_succ_self _
    · rw [hlen]
      refine (addToBuckets_flatten _ _ _).trans ?_
      refine (I2.cons keys.length).trans ?_
      rw [List.range_succ]
      exact (List.perm_append_singleton _ _).symm
    · rw [addToBuckets_fst]
      by_cases hmem : g ∈ (bucketsOf keys).map Prod.fst
      · rw [if_pos hmem]
        exact I3
      · rw [if_neg hmem]
        simp [List.nodup_append, I3, hmem]
    · exact addToBuckets_pairwise_headI _ _ _
        (fun b hb => (I1 b hb).1) hbnd I4

/-- A row index occurring in pairwise-disjoint, duplicate-free index lists
occurs in exactly one of them. -/
theorem countP_mem_flatten_eq_one {i : Nat} :
    ∀ (ls : List (List Nat)), ls.flatten.Nodup → i ∈ ls.flatten →
      ls.countP (fun l => decide (i ∈ l)) = 1
  | [], _, hmem => by simp at hmem
  | l :: ls, hnd, hmem => by
    rw [List.flatten_cons] at hnd hmem
    rw [List.countP_cons]
    have hdisj := List.disjoint_of_nodup_append hnd
    by_cases hil : i ∈ l
    · have h0 : (List.countP (fun l => decide (i ∈ l)) ls) = 0 := by
        rw [List.countP_eq_zero]
        intro l' hl'
        simp only [decide_eq_true_eq]
        intro hil'
        exact hdisj hil (List.mem_flatten.mpr ⟨l', hl', hil'⟩)
      simp [h0, hil]
    · have hmem' : i ∈ ls.flatten := by
        rcases List.mem_append.mp hmem with h | h
        · exact absurd h hil
        · exact h
      have h1 := countP_mem_flatten_eq_one ls (List.Nodup.of_append_right hnd) hmem'
      simp [h1, hil]

/-- C9: `group_by` partitions the rows: the sum of the row counts of the
produced groups equals the parent's row count; every parent row index
appears in the index map of exactly one group; and each group's index map
is strictly increasing (rows keep their original relative order). -/
theorem c9_group_by_partition {G : Type} [DecidableEq G] (df : DataFrame)
    (grouper : Line → G) :
    ((df.groupBy grouper).map (fun b => b.2.len)).sum = df.len ∧
    (∀ i, i < df.len →
      (df.groupBy grouper).countP (fun b => decide (i ∈ b.2.lineIndexMap)) = 1) ∧
    (∀ b ∈ df.groupBy grouper,
      b.2.lineIndexMap ≠ [] ∧ b.2.lineIndexMap.Pairwise (· < ·)) := by
  obtain ⟨I1, I2, I3, I4⟩ := bucketsOf_inv (df.groupKeys grouper)
  have hklen : (df.groupKeys grouper).length = df.len := by
    simp [DataFrame.groupKeys]
  refine ⟨?_, ?_, ?_⟩
  · show ((((bucketsOf (df.groupKeys grouper)).map
      (fun b => (b.1, DataFrame.lineReorder df b.2))).map (fun b => b.2.len)).sum = df.len)
    rw [List.map_map]
    have hcomp : ((fun (b : G × DataFrame) => b.2.len) ∘
        (fun b => (b.1, DataFrame.lineReorder df b.2))) =
        fun (b : G × List Nat) => b.2.length := rfl
    rw [hcomp]
    have h1 : (List.map (fun (b : G × List Nat) => b.2.length)
        (bucketsOf (df.groupKeys grouper))) =
        List.map List.length ((bucketsOf (df.groupKeys grouper)).map Prod.snd) := by
      rw [List.map_map]
      rfl
    rw [h1, ← List.length_flatten, I2.length_eq, List.length_range, hklen]
  · intro i hi
    show ((bucketsOf (df.groupKeys grouper)).map
      (fun b => (b.1, DataFrame.lineReorder df b.2))).countP
        (fun b => decide (i ∈ b.2.lineIndexMap)) = 1
    rw [List.countP_map]
    have hcomp : ((fun (b : G × DataFrame) => decide (i ∈ b.2.lineIndexMap)) ∘
        (fun b => (b.1, DataFrame.lineReorder df b.2))) =
        ((fun l => decide (i ∈ l)) ∘ Prod.snd) := rfl
    rw [hcomp, ← List.countP_map]
    refine countP_mem_flatten_eq_one _ ?_ ?_
    · exact I2.nodup_iff.mpr (List.nodup_range _)
    · exact I2.mem_iff.mpr (List.mem_range.mpr (by omega))
  · intro b hb
    rcases List.mem_map.mp hb with ⟨b0, hb0, hfb⟩
    obtain ⟨hne, hpw, _⟩ := I1 b0 hb0
    subst hfb
    simp only [DataFrame.lineIndexMap]
    exact ⟨hne, hpw⟩

/-- C9 (witness): on the four-row table with keys `7, 8, 7, 9`, the group
sizes sum to the parent row count and row `2` lies in exactly one group. -/
theorem c9_group_by_partition_witness :
    (((DataFrame.base wGroupBase).groupBy intKeyOf).map (fun b => b.2.len)).sum =
      (DataFrame.base wGroupBase).len ∧
    ((DataFrame.base wGroupBase).groupBy intKeyOf).countP
      (fun b => decide (2 ∈ b.2.lineIndexMap)) = 1 :=
  ⟨(c9_group_by_partition (DataFrame.base wGroupBase) intKeyOf).1,
    (c9_group_by_partition (DataFrame.base wGroupBase) intKeyOf).2.1 2
      (by with_unfolding_all decide)⟩

/-- C2: the groups produced by `group_by` are enumerated in order of each
key's first-occurring row index (group `i`'s first-seen row precedes group
`i+1`'s), and this order is independent of the internal hash map's
iteration order: whatever permutation of the buckets the map drain
produces, the sort by each bucket's first row index
(`map.sort_by_key(|(_g, vec)| vec[0])`) returns the unique
first-occurrence-ordered bucket list. -/
theorem c2_group_by_first_occurrence_order {G : Type} [DecidableEq G]
    (df : DataFrame) (grouper : Line → G)
    (drained sortedOut : List (G × List Nat)) :
    (df.groupBy grouper).Pairwise
      (fun a b => a.2.lineIndexMap.headI < b.2.lineIndexMap.headI) ∧
    (List.Perm drained (bucketsOf (df.groupKeys grouper)) →
      List.Perm sortedOut drained →
      sortedOut.Pairwise (fun a b => a.2.headI ≤ b.2.headI) →
      sortedOut = bucketsOf (df.groupKeys grouper)) := by
  obtain ⟨I1, I2, I3, I4⟩ := bucketsOf_inv (df.groupKeys grouper)
  constructor
  · show ((bucketsOf (df.groupKeys grouper)).map
      (fun b => (b.1, DataFrame.lineReorder df b.2))).Pairwise
        (fun a b => a.2.lineIndexMap.headI < b.2.lineIndexMap.headI)
    exact List.pairwise_map.mpr I4
  · intro h1 h2 h3
    have hsb : List.Perm sortedOut (bucketsOf (df.groupKeys grouper)) := h2.trans h1
    have hmaplt : (List.map (fun (b : G × List Nat) => b.2.headI)
        (bucketsOf (df.groupKeys grouper))).Pairwise (· < ·) :=
      List.pairwise_map.mpr I4
    have hnodup : (List.map (fun (b : G × List Nat) => b.2.headI)
        (bucketsOf (df.groupKeys grouper))).Nodup :=
      List.Pairwise.imp (fun h => Nat.ne_of_lt h) hmaplt
    have hnodup' : (List.map (fun (b : G × List Nat) => b.2.headI) sortedOut).Nodup :=
      (hsb.map _).nodup_iff.mpr hnodup
    have hne : sortedOut.Pairwise (fun a b => a.2.headI ≠ b.2.headI) :=
      List.pairwise_map.mp hnodup'
    have hlt : sortedOut.Pairwise (fun a b => a.2.headI < b.2.headI) :=
      (h3.and hne).imp (fun h => lt_of_le_of_ne h.1 h.2)
    haveI : IsAntisymm (G × List Nat) (fun a b => a.2.headI < b.2.headI) :=
      ⟨fun a b ha hb => absurd (ha.trans hb) (lt_irrefl _)⟩
    exact List.eq_of_perm_of_sorted hsb hlt I4

/-- C2 (witness): for keys `7, 8, 7, 9`, sorting the out-of-order drain
`[(8,[1]), (7,[0,2]), (9,[3])]` by first row index recovers the
first-occurrence order `[(7,[0,2]), (8,[1]), (9,[3])]`, which is the
bucket list `group_by` wraps. -/
theorem c2_group_by_first_occurrence_order_witness :
    ([((7 : Int), [0, 2]), (8, [1]), (9, [3])] : List (Int × List Nat)) =
      bucketsOf ((DataFrame.base wGroupBase).groupKeys intKeyOf) :=
  (c2_group_by_first_occurrence_order (DataFrame.base wGroupBase) intKeyOf
      [((8 : Int), [1]), (7, [0, 2]), (9, [3])]
      [((7 : Int), [0, 2]), (8, [1]), (9, [3])]).2
    (by with_unfolding_all decide) (by decide) (by decide)

/-- C7: `sort` is stable.  `sort_by_key` is Rust's stable sort, and a
stable sort-by-key is extensionally unique, so the index map is
`List.mergeSort` (itself stable) of the identity map by the computed keys;
any two positions `p < q` of the sorted index map carrying equal keys
still list their rows in the original relative order, i.e. the row index
at `p` is smaller than the row index at `q`. -/
theorem c7_sort_stable {K : Type} [LinearOrder K] (df : DataFrame)
    (keyGen : Line → K) (p q : Nat) (hpq : p < q)
    (hq : q < (df.sortIndexMap keyGen).length)
    (heq : df.keyAt keyGen ((df.sortIndexMap keyGen).getD p 0) =
      df.keyAt keyGen ((df.sortIndexMap keyGen).getD q 0)) :
    (df.sortIndexMap keyGen).getD p 0 < (df.sortIndexMap keyGen).getD q 0 := by
  have hsm : df.sortIndexMap keyGen = (List.range df.len).mergeSort
      (fun i j => decide (df.keyAt keyGen i ≤ df.keyAt keyGen j)) := rfl
  rw [hsm] at hq heq ⊢
  set le : Nat → Nat → Bool :=
    fun i j => decide (df.keyAt keyGen i ≤ df.keyAt keyGen j) with hle
  set m := (List.range df.len).mergeSort le with hmdef
  have hp : p < m.length := lt_trans hpq hq
  have hperm : List.Perm m (List.range df.len) := List.mergeSort_perm _ le
  have htrans : ∀ a b c : Nat, le a b = true → le b c = true → le a c = true := by
    intro a b c h1 h2
    exact decide_eq_true (le_trans (of_decide_eq_true h1) (of_decide_eq_true h2))
  have htotal : ∀ a b : Nat, (le a b || le b a) = true := by
    intro a b
    rcases le_total (df.keyAt keyGen a) (df.keyAt keyGen b) with h | h
    · have : le a b = true := decide_eq_true h
      rw [this, Bool.true_or]
    · have : le b a = true := decide_eq_true h
      rw [this, Bool.or_true]
  have hgp : m.getD p 0 = m.get ⟨p, hp⟩ := by
    rw [List.getD_eq_getElem?_getD, List.getElem?_eq_getElem hp,
      Option.getD_some, List.get_eq_getElem]
  have hgq : m.getD q 0 = m.get ⟨q, hq⟩ := by
    rw [List.getD_eq_getElem?_getD, List.getElem?_eq_getElem hq,
      Option.getD_some, List.get_eq_getElem]
  rw [hgp, hgq] at heq ⊢
  set a := m.get ⟨p, hp⟩ with ha
  set b := m.get ⟨q, hq⟩ with hb
  set c := df.keyAt keyGen a with hc
  set pred : Nat → Bool := fun x => decide (df.keyAt keyGen x = c) with hpred
  set l' := (List.range df.len).filter pred with hl'
  have hl'keys : ∀ x ∈ l', df.keyAt keyGen x = c := fun x hx =>
    of_decide_eq_true (List.of_mem_filter (p := pred) (by rwa [hl'] at hx))
  have hl'pw : l'.Pairwise (· < ·) := (List.pairwise_lt_range _).filter pred
  have hl'le : l'.Pairwise (fun x y => le x y = true) := by
    refine List.Pairwise.imp_of_mem ?_ hl'pw
    intro x y hx hy _
    have hx' := hl'keys x hx
    have hy' := hl'keys y hy
    exact decide_eq_true (by rw [hx', hy'])
  have hsub : List.Sublist l' m := List.sublist_mergeSort htrans htotal hl'le
    (by rw [hl']; exact (List.filter_sublist _))
  have hfeq : m.filter pred = l' := by
    have h1 : l'.filter pred = l' :=
      List.filter_eq_self.mpr (fun x hx => List.of_mem_filter hx)
    have h2 : List.Sublist l' (m.filter pred) := by
      have h2' := List.Sublist.filter pred hsub
      rwa [h1] at h2'
    have h3 : (m.filter pred).length = l'.length := (hperm.filter pred).length_eq
    exact (h2.eq_of_length h3.symm).symm
  have hpredb : pred b = true := decide_eq_true heq.symm
  have hdec : m = m.take q ++ b :: m.drop (q + 1) := by
    conv_lhs => rw [← List.take_append_drop q m]
    congr 1
    rw [hb, List.get_eq_getElem]
    exact (List.getElem_cons_drop m q hq).symm
  have hfdec : m.filter pred = (m.take q).filter pred ++
      b :: (m.drop (q + 1)).filter pred := by
    conv_lhs => rw [hdec]
    rw [List.filter_append, List.filter_cons_of_pos hpredb]
  have hpt : p < (m.take q).length := by
    rw [List.length_take]
    omega
  have hamem : a ∈ (m.take q).filter pred := by
    refine List.mem_filter.mpr ⟨?_, decide_eq_true hc.symm⟩
    have hget : (m.take q).get ⟨p, hpt⟩ = a := by
      rw [ha, List.get_eq_getElem, List.get_eq_getElem]
      exact List.getElem_take m
    rw [← hget]
    exact List.get_mem _ _ _
  have hsplit : l' = (m.take q).filter pred ++ b :: (m.drop (q + 1)).filter pred := by
    rw [← hfeq, hfdec]
  have hfinal := hl'pw
  rw [hsplit, List.pairwise_append] at hfinal
  exact hfinal.2.2 a hamem b (List.mem_cons_self _ _)

/-- C7 (witness): sorting rows `5, 3, 3` by value puts the two tied rows
(indices 1 and 2) in their original relative order. -/
theorem c7_sort_stable_witness :
    ((DataFrame.base wSortBase).sortIndexMap intKeyOf).getD 0 0 <
      ((DataFrame.base wSortBase).sortIndexMap intKeyOf).getD 1 0 :=
  c7_sort_stable (DataFrame.base wSortBase) intKeyOf 0 1 (by decide)
    (by simp [DataFrame.sortIndexMap, List.length_mergeSort]
        with_unfolding_all decide)
    (by with_unfolding_all rfl)

/-- On a row-well-formed view tree the resolver finds a row exactly for
the in-bounds logical indices, at every node kind. -/
theorem rowWF_get : ∀ (df : DataFrame), RowWF df → ∀ (i : Nat),
    ((df.get i).isSome = true ↔ i < df.len)
  | DataFrame.base b, _, i => by
    simp only [DataFrame.get, DataFrame.len, List.get?_eq_getElem?,
      Option.isSome_map']
    constructor
    · intro hs
      by_contra hge
      push_neg at hge
      rw [List.getElem?_eq_none hge] at hs
      simp at hs
    · intro hi
      rw [List.getElem?_eq_getElem hi]
      rfl
  | DataFrame.lineReorder df m, h, i => by
    obtain ⟨hwf, hbnd⟩ := h
    constructor
    · intro hs
      by_contra hlt
      have hge : m.length ≤ i := by
        simpa [DataFrame.len] using hlt
      have hnone : m[i]? = none := by
        rw [← List.get?_eq_getElem?]
        exact List.get?_eq_none.mpr hge
      simp [DataFrame.get, hnone] at hs
    · intro hi
      have hi' : i < m.length := by simpa [DataFrame.len] using hi
      have hsome : m.get? i = some (m.get ⟨i, hi'⟩) := List.get?_eq_get hi'
      have hjm : m.get ⟨i, hi'⟩ ∈ m := List.get_mem _ _ _
      have hj : m.get ⟨i, hi'⟩ < df.len := hbnd _ hjm
      have hrec := (rowWF_get df hwf (m.get ⟨i, hi'⟩)).mpr hj
      show ((m.get? i).bind (fun j => df.get j)).isSome = true
      rw [hsome, Option.some_bind]
      exact hrec
  | DataFrame.columnReorder df m, h, i => by
    have hrec := rowWF_get df h i
    simpa [DataFrame.get, DataFrame.len] using hrec

/-- Every frame built by the public constructors and transformations is
row-well-formed. -/
theorem built_RowWF : ∀ {df : DataFrame}, Built df → RowWF df := by
  intro df h
  induction h with
  | new header =>
    show RowWF (DataFrame.new header)
    simp [DataFrame.new, RowWF]
  | head n hb ih =>
    rename_i df
    rw [DataFrame.head]
    by_cases hn : n < df.len
    · rw [if_pos hn]
      exact ⟨ih, fun i hi => lt_trans (List.mem_range.mp hi) hn⟩
    · rw [if_neg hn]
      exact ih
  | tail n hb ih =>
    rename_i df
    rw [DataFrame.tail]
    by_cases hn : n < df.len
    · rw [if_pos hn]
      refine ⟨ih, fun i hi => ?_⟩
      have := List.mem_range'_1.mp hi
      omega
    · rw [if_neg hn]
      exact ih
  | rangeRows hb hok ih =>
    rename_i df start stop out
    rw [DataFrame.rangeRows] at hok
    by_cases hc : start ≤ stop ∧ stop ≤ df.len
    · rw [if_pos hc] at hok
      cases hok
      refine ⟨ih, fun i hi => ?_⟩
      have := List.mem_range'_1.mp hi
      omega
    · rw [if_neg hc] at hok
      cases hok
  | sortBy keyGen hb ih =>
    refine ⟨ih, fun i hi => ?_⟩
    exact List.mem_range.mp (List.mem_mergeSort.mp hi)
  | filterRows p hb ih =>
    refine ⟨ih, fun i hi => ?_⟩
    exact List.mem_range.mp (List.mem_filter.mp hi).1
  | dropColumn idx hb ih => exact ih
  | dropAllColumnExcept idxs hb ih => exact ih
  | groupBy grouper hb hmem ih =>
    rename_i df G instG g sub
    rcases List.mem_map.mp hmem with ⟨b0, hb0, hfb⟩
    have hsub : sub = DataFrame.lineReorder df b0.2 := by
      have := congrArg Prod.snd hfb
      simpa using this.symm
    obtain ⟨I1, _, _, _⟩ := bucketsOf_inv (df.groupKeys grouper)
    have hklen : (df.groupKeys grouper).length = df.len := by
      simp [DataFrame.groupKeys]
    rw [hsub]
    refine ⟨ih, fun i hi => ?_⟩
    have := (I1 b0 hb0).2.2 i hi
    omega

/-- C10: for every frame reachable from the public constructors and
transformations, `get i` returns a row exactly when `i < len`, and `None`
(never a failure) for every out-of-bounds `i`, at every node kind of the
view tree. -/
theorem c10_get_some_iff_lt_len {df : DataFrame} (h : Built df) (i : Nat) :
    ((df.get i).isSome = true) ↔ i < df.len :=
  rowWF_get df (built_RowWF h) i

/-- C10 (witness): on `new(["a"]).head 5` (an empty table under a no-op
head), `get 0` is `None` and `0 < len` is false, as the equivalence
states. -/
theorem c10_get_some_iff_lt_len_witness :
    ((((DataFrame.new [['a']]).head 5).get 0).isSome = true) ↔
      0 < ((DataFrame.new [['a']]).head 5).len :=
  c10_get_some_iff_lt_len (Built.head 5 (Built.new [['a']])) 0

/-- Lemma: `as_data` over a stored row is just the element-wise decode. -/
theorem asDataList_eq (st : List Char) : ∀ xs : List InnerData,
    InnerData.asData.asDataList st xs = xs.map (InnerData.asData st)
  | [] => rfl
  | x :: xs => by
    simp only [InnerData.asData.asDataList, List.map_cons]
    rw [asDataList_eq st xs]

/-- Resolving a freshly interned range out of any later extension of the
storage returns the interned text. -/
theorem sliceCL_intern (st s rest : List Char) :
    sliceCL ((st ++ s) ++ rest) st.length (st.length + s.length) = s := by
  unfold sliceCL
  have h1 : List.take (st.length + s.length) ((st ++ s) ++ rest) = st ++ s := by
    rw [List.take_append_eq_append_take]
    rw [show st.length + s.length = (st ++ s).length from (List.length_append _ _).symm]
    rw [List.take_length]
    simp
  rw [h1, List.drop_left]

mutual

/-- Lemma: `into_inner_data` only appends to the storage, and decoding its result
against any later extension of that storage recovers the original value. -/
theorem intoInner_spec : ∀ (d : Data) (st : List Char),
    (∃ ext, (Data.intoInner d st).2 = st ++ ext) ∧
    ∀ rest, InnerData.asData ((Data.intoInner d st).2 ++ rest)
      (Data.intoInner d st).1 = d
  | Data.str s, st => by
    refine ⟨⟨s, rfl⟩, ?_⟩
    intro rest
    simp only [Data.intoInner, internStr, InnerData.asData]
    rw [sliceCL_intern]
  | Data.int n, st => ⟨⟨[], by simp [Data.intoInner]⟩, fun rest => rfl⟩
  | Data.float q, st => ⟨⟨[], by simp [Data.intoInner]⟩, fun rest => rfl⟩
  | Data.bool b, st => ⟨⟨[], by simp [Data.intoInner]⟩, fun rest => rfl⟩
  | Data.date d, st => ⟨⟨[], by simp [Data.intoInner]⟩, fun rest => rfl⟩
  | Data.vec xs, st => by
    obtain ⟨⟨ext, hext⟩, hres⟩ := intoInnerList_spec xs st
    refine ⟨⟨ext, ?_⟩, ?_⟩
    · simpa [Data.intoInner] using hext
    · intro rest
      simp only [Data.intoInner, InnerData.asData]
      rw [hres rest]
  | Data.vec2d x y, st => ⟨⟨[], by simp [Data.intoInner]⟩, fun rest => rfl⟩

/-- Lemma: `into_inner_data` threaded over a list of cells, same statement. -/
theorem intoInnerList_spec : ∀ (ds : List Data) (st : List Char),
    (∃ ext, (Data.intoInner.intoInnerList ds st).2 = st ++ ext) ∧
    ∀ rest, InnerData.asData.asDataList
      ((Data.intoInner.intoInnerList ds st).2 ++ rest)
      (Data.intoInner.intoInnerList ds st).1 = ds
  | [], st => ⟨⟨[], by simp [Data.intoInner.intoInnerList]⟩, fun rest => rfl⟩
  | d :: ds, st => by
    obtain ⟨⟨e1, he1⟩, hres1⟩ := intoInner_spec d st
    obtain ⟨⟨e2, he2⟩, hres2⟩ := intoInnerList_spec ds (Data.intoInner d st).2
    constructor
    · refine ⟨e1 ++ e2, ?_⟩
      simp only [Data.intoInner.intoInnerList]
      rw [he2, he1, List.append_assoc]
    · intro rest
      simp only [Data.intoInner.intoInnerList, InnerData.asData.asDataList]
      congr 1
      · rw [he2, List.append_assoc]
        exact hres1 (e2 ++ rest)
      · exact hres2 rest

end

/-- The row-interning loop only appends to the storage, and decoding every
produced row against any later extension recovers the original rows. -/
theorem internRows_spec : ∀ (rows : List (List Data)) (st : List Char),
    (∃ ext, (internRows rows st).2 = st ++ ext) ∧
    ∀ rest, ((internRows rows st).1).map
      (fun r => InnerData.asData.asDataList ((internRows rows st).2 ++ rest) r) = rows
  | [], st => ⟨⟨[], by simp [internRows]⟩, fun rest => rfl⟩
  | row :: rows, st => by
    obtain ⟨⟨e1, he1⟩, hres1⟩ := intoInnerList_spec row st
    obtain ⟨⟨e2, he2⟩, hres2⟩ :=
      internRows_spec rows (Data.intoInner.intoInnerList row st).2
    constructor
    · refine ⟨e1 ++ e2, ?_⟩
      simp only [internRows]
      rw [he2, he1, List.append_assoc]
    · intro rest
      simp only [internRows, List.map_cons]
      congr 1
      · rw [he2, List.append_assoc]
        exact hres1 (e2 ++ rest)
      · exact hres2 rest

/-- The header-interning loop only appends to the storage, and resolving
every produced range against any later extension recovers the header
names. -/
theorem internHeaderRanges_spec : ∀ (hs : List (List Char)) (st : List Char),
    (∃ ext, (internHeaderRanges hs st).2 = st ++ ext) ∧
    ∀ rest, ((internHeaderRanges hs st).1).map
      (fun r => sliceCL ((internHeaderRanges hs st).2 ++ rest) r.1 r.2) = hs
  | [], st => ⟨⟨[], by simp [internHeaderRanges]⟩, fun rest => rfl⟩
  | h :: hs, st => by
    obtain ⟨⟨e2, he2⟩, hres2⟩ := internHeaderRanges_spec hs (st ++ h)
    constructor
    · refine ⟨h ++ e2, ?_⟩
      simp only [internHeaderRanges, internStr]
      rw [he2, List.append_assoc]
    · intro rest
      simp only [internHeaderRanges, internStr, List.map_cons]
      congr 1
      · rw [he2, List.append_assoc]
        exact sliceCL_intern st h (e2 ++ rest)
      · exact hres2 rest

/-- The expensive materialization path preserves observable content: the
rebuilt table's resolved header names and decoded rows are exactly the
header names and resolved rows of the source view. -/
theorem materialize_content (df : DataFrame) :
    baseHeaderL (materializeExpensive df) = df.headerL ∧
    baseRows (materializeExpensive df) = df.rowsData := by
  obtain ⟨⟨e1, he1⟩, hres1⟩ := internHeaderRanges_spec df.headerL []
  obtain ⟨⟨e2, he2⟩, hres2⟩ :=
    internRows_spec df.rowsData (internHeaderRanges df.headerL []).2
  constructor
  · show ((internHeaderRanges df.headerL []).1).map
      (fun r => sliceCL ((internRows df.rowsData
        (internHeaderRanges df.headerL []).2).2) r.1 r.2) = df.headerL
    rw [he2]
    exact hres1 e2
  · show ((internRows df.rowsData (internHeaderRanges df.headerL []).2).1).map
      (fun r => InnerData.asData.asDataList
        ((internRows df.rowsData (internHeaderRanges df.headerL []).2).2) r) =
      df.rowsData
    have := hres2 []
    rwa [List.append_nil] at this

/-- Indexing a list by every position in order is the identity traversal. -/
theorem map_range_opt {α β : Type} (l : List α) (f : Option α → β) :
    (List.range l.length).map (fun j => f (l.get? j)) = l.map (fun x => f (some x)) := by
  induction l with
  | nil => rfl
  | cons a t ih =>
    rw [List.length_cons, List.range_succ_eq_map, List.map_cons, List.map_cons,
      List.map_map]
    congr 1

/-- The header names of a `Base` view are the base table's resolved header
names. -/
theorem headerL_base (T : BaseDataFrame) :
    (DataFrame.base T).headerL = baseHeaderL T := by
  show (List.range T.header.length).map
      (fun j => ((T.header.get? j).map
        (fun r => sliceCL T.string_storage r.1 r.2)).getD []) =
    T.header.map (fun r => sliceCL T.string_storage r.1 r.2)
  rw [map_range_opt T.header
    (fun o => (o.map (fun r => sliceCL T.string_storage r.1 r.2)).getD [])]
  simp

/-- The resolved rows of a well-formed `Base` view are the base table's
decoded rows. -/
theorem rowsData_base (T : BaseDataFrame) (h : BaseWF T) :
    (DataFrame.base T).rowsData = baseRows T := by
  obtain ⟨hid, hlen⟩ := h
  show (List.range T.data.length).map
      (fun i => (((T.data.get? i).map
        (fun l => (⟨T.string_storage, l, T.identity_index_map⟩ : Line))).getD
          default).cells) =
    T.data.map (fun row => InnerData.asData.asDataList T.string_storage row)
  rw [map_range_opt T.data
    (fun o => ((o.map (fun l =>
      (⟨T.string_storage, l, T.identity_index_map⟩ : Line))).getD default).cells)]
  refine List.map_congr_left ?_
  intro row hrow
  show (Line.mk T.string_storage row T.identity_index_map).cells =
    InnerData.asData.asDataList T.string_storage row
  unfold Line.cells
  rw [asDataList_eq]
  show T.identity_index_map.map
      (fun j => (row.getD j default).asData T.string_storage) =
    row.map (InnerData.asData T.string_storage)
  rw [hid, ← hlen row hrow]
  have hconv : (fun j => ((row.getD j default).asData T.string_storage)) =
      fun j => (((row.get? j).getD default).asData T.string_storage) := by
    funext j
    rw [List.getD_eq_getElem?_getD, List.get?_eq_getElem?]
  rw [hconv]
  rw [map_range_opt row (fun o => ((o.getD default).asData T.string_storage))]
  simp

/-- C1: materializing the view that wraps a (well-formed) base table
yields a table content-equal to it, and the two materialization paths
agree: the cheap path (moving the base table out of a `Base` node) returns
the table itself, while the expensive path (re-enumerating every logical
row and column through the resolver into a fresh arena) produces a
content-equal base table. -/
theorem c1_materialize_roundtrip (T : BaseDataFrame) (h : BaseWF T) :
    cheapMaterialize (DataFrame.base T) = some T ∧
    BaseContentEq (materializeExpensive (DataFrame.base T)) T := by
  refine ⟨rfl, ?_, ?_⟩
  · rw [(materialize_content (DataFrame.base T)).1, headerL_base]
  · rw [(materialize_content (DataFrame.base T)).2, rowsData_base T h]

/-- C1 (witness): on a concrete two-column table holding a string cell and
a nested vector cell. -/
theorem c1_materialize_roundtrip_witness :
    BaseWF wMatBase ∧
    (cheapMaterialize (DataFrame.base wMatBase) = some wMatBase ∧
      BaseContentEq (materializeExpensive (DataFrame.base wMatBase)) wMatBase) :=
  ⟨by unfold BaseWF; exact ⟨by decide, by decide⟩,
    c1_materialize_roundtrip wMatBase (by unfold BaseWF; exact ⟨by decide, by decide⟩)⟩
